import Mathlib

/-!
# Verification of the Commentary concept (comment thread store)

Shallow embedding of `src/concepts/Commentary/CommentaryConcept.ts`: a store of
Threads, Comments and Reactions backed by three document collections, with
actions `postComment`, `reply`, `react`, `deleteComment` and four read-only
queries.  Collections are modelled as lists of documents in insertion order;
`findOne` is `List.find?`, `find(...).toArray()` is `List.filter`,
`insertOne` appends, `updateOne` updates the first matching document,
`deleteMany` filters, `$push` appends to an array field and `$pull` removes
all matching elements.  Identifiers are opaque; we model them as naturals.
-/

namespace Commentary

/-- A Thread document (`ThreadDoc` in the source): the discussion scope for one
(book, section) pair, carrying the ids of its top-level comments.  The source
field `section` is a reserved word in Lean, so it is called `sectionId` here. -/
structure ThreadDoc where
  _id : Nat
  book : Nat
  sectionId : Nat
  topLevelCommentIds : List Nat
deriving DecidableEq, Repr

/-- A Comment document (`CommentDoc` in the source). -/
structure CommentDoc where
  _id : Nat
  author : Nat
  body : String
  threadId : Nat
  parentId : Option Nat
  reactionIds : List Nat
deriving DecidableEq, Repr

/-- A Reaction document (`ReactionDoc` in the source). -/
structure ReactionDoc where
  _id : Nat
  reactor : Nat
  targetCommentId : Nat
  type : String
deriving DecidableEq, Repr

/-- The state of the Commentary concept: the three collections, plus the
counter of the identifier generator.

Modelled from the spec: `freshID` (in `src/utils/database.ts`, not part of the
given sources) "produces globally unique opaque identifiers on demand"; we
model it as a counter `nextId` held in the state, each call returning the
current value and incrementing it, so every generated id is distinct from all
ids generated before. -/
structure State where
  threads : List ThreadDoc
  comments : List CommentDoc
  reactions : List ReactionDoc
  nextId : Nat
deriving DecidableEq, Repr

/-- The empty initial state: all collections empty. -/
def State.init : State := ⟨[], [], [], 0⟩

/-- `updateOne` of the document store: apply `f` to the first element of the
list satisfying `p`, leaving everything else unchanged. -/
def updateFirst (p : α → Bool) (f : α → α) : List α → List α
  | [] => []
  | x :: xs => if p x then f x :: xs else x :: updateFirst p f xs

/-- `postComment(author, book, section, body)` from the source: find or create
the thread for `(book, section)`, insert a fresh top-level comment, push its id
onto the thread's `topLevelCommentIds`, and return the new comment id.  The
source's return type admits an error record but no error is ever produced. -/
def postComment (s : State) (author book sect : Nat) (body : String) :
    Nat × State :=
  match s.threads.find? (fun t => decide (t.book = book ∧ t.sectionId = sect)) with
  | none =>
      let threadId := s.nextId
      let threads1 := s.threads ++
        [{ _id := threadId, book := book, sectionId := sect, topLevelCommentIds := [] }]
      let newCommentId := s.nextId + 1
      let newComment : CommentDoc :=
        { _id := newCommentId
          author := author
          body := body
          threadId := threadId
          parentId := none
          reactionIds := [] }
      let threads2 := updateFirst (fun t => decide (t._id = threadId))
        (fun t => { t with topLevelCommentIds := t.topLevelCommentIds ++ [newCommentId] })
        threads1
      (newCommentId,
        { threads := threads2
          comments := s.comments ++ [newComment]
          reactions := s.reactions
          nextId := s.nextId + 2 })
  | some threadDoc =>
      let threadId := threadDoc._id
      let newCommentId := s.nextId
      let newComment : CommentDoc :=
        { _id := newCommentId
          author := author
          body := body
          threadId := threadId
          parentId := none
          reactionIds := [] }
      let threads2 := updateFirst (fun t => decide (t._id = threadId))
        (fun t => { t with topLevelCommentIds := t.topLevelCommentIds ++ [newCommentId] })
        s.threads
      (newCommentId,
        { threads := threads2
          comments := s.comments ++ [newComment]
          reactions := s.reactions
          nextId := s.nextId + 1 })

/-- `reply(author, parent, body)` from the source: fail when the parent does
not resolve, otherwise insert a fresh comment in the parent's thread with
`parentId = parent`.  Thread documents are not touched. -/
def reply (s : State) (author parent : Nat) (body : String) :
    Except String Nat × State :=
  match s.comments.find? (fun c => decide (c._id = parent)) with
  | none =>
      (.error ("Parent comment with ID " ++ toString parent ++ " not found."), s)
  | some parentComment =>
      let newCommentId := s.nextId
      let newComment : CommentDoc :=
        { _id := newCommentId
          author := author
          body := body
          threadId := parentComment.threadId
          parentId := some parent
          reactionIds := [] }
      (.ok newCommentId,
        { s with
          comments := s.comments ++ [newComment]
          nextId := s.nextId + 1 })

/-- `react(reactor, target, type)` from the source: fail when the target does
not resolve, fail when a reaction with the identical `(reactor, target, type)`
triple already exists, otherwise insert a fresh Reaction and push its id onto
the target comment's `reactionIds`. -/
def react (s : State) (reactor target : Nat) (type : String) :
    Except String Nat × State :=
  match s.comments.find? (fun c => decide (c._id = target)) with
  | none =>
      (.error ("Target comment with ID " ++ toString target ++ " not found."), s)
  | some _ =>
      match s.reactions.find? (fun r =>
          decide (r.reactor = reactor ∧ r.targetCommentId = target ∧ r.type = type)) with
      | some _ =>
          (.error ("User " ++ toString reactor ++ " already reacted with type " ++
            type ++ " to comment " ++ toString target ++ "."), s)
      | none =>
          let newReactionId := s.nextId
          let newReaction : ReactionDoc :=
            { _id := newReactionId
              reactor := reactor
              targetCommentId := target
              type := type }
          let comments1 := updateFirst (fun c => decide (c._id = target))
            (fun c => { c with reactionIds := c.reactionIds ++ [newReactionId] })
            s.comments
          (.ok newReactionId,
            { s with
              comments := comments1
              reactions := s.reactions ++ [newReaction]
              nextId := s.nextId + 1 })

/-- Ids of the direct children of comment `p`: the comments whose `parentId`
equals `p` (the body of the `for` loop over `directChildren` in the source). -/
def childIds (comments : List CommentDoc) (p : Nat) : List Nat :=
  (comments.filter (fun c => decide (c.parentId = some p))).map (fun c => c._id)

/-- The descendant-collection worklist loop of `deleteComment`, with explicit
fuel.  Each iteration pops the front of the queue, finds the comments whose
`parentId` equals it, and appends their ids both to the collected list and to
the queue.  `none` means the fuel ran out with the queue still non-empty (the
source loop would keep running); for well-formed states we prove that fuel
`comments.length + 1` always suffices. -/
def collectLoop (comments : List CommentDoc) :
    Nat → List Nat → List Nat → Option (List Nat)
  | _, collected, [] => some collected
  | 0, _, _ :: _ => none
  | fuel + 1, collected, cur :: rest =>
      collectLoop comments fuel (collected ++ childIds comments cur)
        (rest ++ childIds comments cur)

/-- `deleteComment(requestor, target)` from the source: fail when the target
does not resolve, fail when the requestor is not its author, otherwise collect
the descendant set of `target` with the worklist loop, delete every Reaction
whose `targetCommentId` is in the set, delete every Comment in the set, and —
when the target was top-level — pull its id from its thread's
`topLevelCommentIds`.  The outer `Option` is `none` exactly when the worklist
loop exceeds the fuel bound `comments.length + 1` (impossible in well-formed
states). -/
def deleteComment (s : State) (requestor target : Nat) :
    Option (Except String Unit × State) :=
  match s.comments.find? (fun c => decide (c._id = target)) with
  | none =>
      some (.error ("Comment with ID " ++ toString target ++ " not found."), s)
  | some targetComment =>
      if targetComment.author ≠ requestor then
        some (.error ("Requestor is not the author of comment " ++
          toString target ++ "."), s)
      else
        match collectLoop s.comments (s.comments.length + 1) [target] [target] with
        | none => none
        | some commentsToDelete =>
            let reactions1 := s.reactions.filter
              (fun r => decide (r.targetCommentId ∉ commentsToDelete))
            let comments1 := s.comments.filter
              (fun c => decide (c._id ∉ commentsToDelete))
            let threads1 :=
              match targetComment.parentId with
              | some _ => s.threads
              | none => updateFirst (fun t => decide (t._id = targetComment.threadId))
                  (fun t => { t with topLevelCommentIds :=
                      t.topLevelCommentIds.filter (fun x => decide (x ≠ target)) })
                  s.threads
            some (.ok (),
              { threads := threads1
                comments := comments1
                reactions := reactions1
                nextId := s.nextId })

/-- `_getThreadComments(book, section)`: all comments of the thread for
`(book, section)`, or the empty list when no such thread exists.  The source's
return type admits an error record, but every path yields a success record;
the returned state is the input state (queries have no side effects). -/
def _getThreadComments (s : State) (book sect : Nat) :
    (Except String (List CommentDoc)) × State :=
  match s.threads.find? (fun t => decide (t.book = book ∧ t.sectionId = sect)) with
  | none => (.ok [], s)
  | some threadDoc =>
      (.ok (s.comments.filter (fun c => decide (c.threadId = threadDoc._id))), s)

/-- `_getCommentReactions(comment)`: all reactions whose `targetCommentId` is
the given comment id. -/
def _getCommentReactions (s : State) (comment : Nat) :
    (Except String (List ReactionDoc)) × State :=
  (.ok (s.reactions.filter (fun r => decide (r.targetCommentId = comment))), s)

/-- `_getComment(commentId)`: the comment with the given id, or the `none`
("null") sentinel when it does not exist. -/
def _getComment (s : State) (commentId : Nat) :
    (Except String (Option CommentDoc)) × State :=
  (.ok (s.comments.find? (fun c => decide (c._id = commentId))), s)

/-- `_getThreadByBookAndSection(book, section)`: the thread for
`(book, section)`, or the `none` ("null") sentinel when it does not exist. -/
def _getThreadByBookAndSection (s : State) (book sect : Nat) :
    (Except String (Option ThreadDoc)) × State :=
  (s.threads.find? (fun t => decide (t.book = book ∧ t.sectionId = sect)) |> .ok, s)

/-- The descendant relation of the spec: "starting from `target_id`,
repeatedly collect all Comments whose `parentId` equals any comment already
collected, until no new comments are found.  This set always includes
`target_id` itself." -/
inductive Desc (comments : List CommentDoc) (target : Nat) : Nat → Prop
  | base : Desc comments target target
  | step {c : CommentDoc} {p : Nat} : c ∈ comments → c.parentId = some p →
      Desc comments target p → Desc comments target c._id

/-- The cross-thread invariant of the spec: a Comment's `threadId` always
equals its parent's `threadId` when `parentId` is set. -/
def ParentSameThread (s : State) : Prop :=
  ∀ c ∈ s.comments, ∀ p, c.parentId = some p →
    ∀ d ∈ s.comments, d._id = p → d.threadId = c.threadId

/-- Number of Thread documents for a given (book, section) pair. -/
def threadCount (s : State) (book sect : Nat) : Nat :=
  (s.threads.filter (fun t => decide (t.book = book ∧ t.sectionId = sect))).length

/-- Well-formedness of a state: all invariants maintained by the operations.
`nextId` bounds every stored id (the identifier generator never repeats an
id), ids are collection-wide distinct, parents are created strictly before
their children, replies stay in their parent's thread, (book, section) pairs
identify at most one thread, and each comment's `reactionIds` holds exactly
the reactions targeting it. -/
structure WF (s : State) : Prop where
  threadIdsLt : ∀ t ∈ s.threads, t._id < s.nextId
  commentIdsLt : ∀ c ∈ s.comments, c._id < s.nextId
  reactionIdsLt : ∀ r ∈ s.reactions, r._id < s.nextId
  reactionListIdsLt : ∀ c ∈ s.comments, ∀ rid ∈ c.reactionIds, rid < s.nextId
  reactionTargetsLt : ∀ r ∈ s.reactions, r.targetCommentId < s.nextId
  threadIdsNodup : (s.threads.map ThreadDoc._id).Nodup
  commentIdsNodup : (s.comments.map CommentDoc._id).Nodup
  parentLt : ∀ c ∈ s.comments, ∀ p, c.parentId = some p → p < c._id
  parentSameThread : ParentSameThread s
  threadCountLe : ∀ b sec, threadCount s b sec ≤ 1
  reactionLink : ∀ c ∈ s.comments, ∀ rid,
    rid ∈ c.reactionIds ↔ ∃ r ∈ s.reactions, r._id = rid ∧ r.targetCommentId = c._id

/-- Sample state: alice (1) posts comment "A" to book 10, section 20. -/
def sampleS1 : State := (postComment State.init 1 10 20 "A").2

/-- Sample state: bob (2) replies to comment 1. -/
def sampleS2 : State := (reply sampleS1 2 1 "re").2

/-- Sample state: bob reacts to comment 1 with "like". -/
def sampleS3 : State := (react sampleS2 2 1 "like").2

/-- Sample state: further reactions "love" by bob and "like" by alice. -/
def sampleS5 : State := (react (react sampleS3 2 1 "love").2 1 1 "like").2

/-- The states reachable by the specified operations from the empty store. -/
inductive Reachable : State → Prop
  | init : Reachable State.init
  | post {s} (author book sect : Nat) (body : String) :
      Reachable s → Reachable (postComment s author book sect body).2
  | rep {s} (author parent : Nat) (body : String) :
      Reachable s → Reachable (reply s author parent body).2
  | rea {s} (reactor target : Nat) (type : String) :
      Reachable s → Reachable (react s reactor target type).2
  | del {s s' res} (requestor target : Nat) :
      Reachable s → deleteComment s requestor target = some (res, s') →
      Reachable s'

/-! ## Basic lemmas about the document-store primitives -/

theorem updateFirst_of_forall_not {p : α → Bool} {f : α → α} :
    ∀ {l : List α}, (∀ x ∈ l, p x = false) → updateFirst p f l = l := by
  intro l
  induction l with
  | nil => intro _; rfl
  | cons x xs ih =>
      intro h
      have hx : p x = false := h x (by simp)
      simp [updateFirst, hx]
      exact ih fun y hy => h y (by simp [hy])

theorem mem_updateFirst_of_not {p : α → Bool} {f : α → α} {a : α} :
    ∀ {l : List α}, a ∈ l → p a = false → a ∈ updateFirst p f l := by
  intro l
  induction l with
  | nil => simp
  | cons x xs ih =>
      intro ha hpa
      rcases List.mem_cons.mp ha with rfl | ha
      · simp [updateFirst, hpa]
      · by_cases hx : p x = true
        · simp [updateFirst, hx]
          exact Or.inr ha
        · simp only [Bool.not_eq_true] at hx
          simp [updateFirst, hx]
          exact Or.inr (ih ha hpa)

theorem mem_updateFirst {p : α → Bool} {f : α → α} {b : α} :
    ∀ {l : List α}, b ∈ updateFirst p f l →
      b ∈ l ∨ ∃ a ∈ l, p a = true ∧ b = f a := by
  intro l
  induction l with
  | nil => simp [updateFirst]
  | cons x xs ih =>
      intro hb
      by_cases hx : p x = true
      · simp [updateFirst, hx] at hb
        rcases hb with rfl | hb
        · exact Or.inr ⟨x, by simp, hx, rfl⟩
        · exact Or.inl (by simp [hb])
      · simp only [Bool.not_eq_true] at hx
        simp [updateFirst, hx] at hb
        rcases hb with rfl | hb
        · exact Or.inl (by simp)
        · rcases ih hb with hb | ⟨a, ha, hpa, rfl⟩
          · exact Or.inl (by simp [hb])
          · exact Or.inr ⟨a, by simp [ha], hpa, rfl⟩

/-- Under distinct keys, updating the first key-match is the same as updating
every key-match pointwise. -/
theorem updateFirst_key_eq {g : α → Nat} {f : α → α} {k : Nat} :
    ∀ {l : List α}, (l.map g).Nodup →
      updateFirst (fun x => decide (g x = k)) f l =
        l.map (fun x => if g x = k then f x else x) := by
  intro l
  induction l with
  | nil => intro _; rfl
  | cons x xs ih =>
      intro hnd
      simp only [List.map_cons, List.nodup_cons, List.mem_map] at hnd
      obtain ⟨hx, hnd'⟩ := hnd
      by_cases hk : g x = k
      · have htail : ∀ y ∈ xs, (if g y = k then f y else y) = y := by
          intro y hy
          have : g y ≠ k := fun h => hx ⟨y, hy, by rw [h, hk]⟩
          simp [this]
        calc updateFirst (fun x => decide (g x = k)) f (x :: xs)
            = f x :: xs := by simp [updateFirst, hk]
          _ = (if g x = k then f x else x) :: xs.map (fun y => if g y = k then f y else y) := by
              rw [if_pos hk, List.map_congr_left htail, List.map_id']
          _ = (x :: xs).map (fun y => if g y = k then f y else y) := rfl
      · simp [updateFirst, hk, ih hnd']

/-- Under distinct keys, `find?` by key returns the member with that key. -/
theorem find?_key_unique {g : α → Nat} {k : Nat} :
    ∀ {l : List α}, (l.map g).Nodup → ∀ {a : α}, a ∈ l → g a = k →
      l.find? (fun x => decide (g x = k)) = some a := by
  intro l
  induction l with
  | nil => simp
  | cons x xs ih =>
      intro hnd a ha hk
      simp only [List.map_cons, List.nodup_cons, List.mem_map] at hnd
      obtain ⟨hx, hnd'⟩ := hnd
      rcases List.mem_cons.mp ha with rfl | ha
      · simp [List.find?, hk]
      · have hxk : g x ≠ k := fun h => hx ⟨a, ha, by rw [hk, h]⟩
        rw [List.find?_cons_of_neg _ (by simp [hxk])]
        exact ih hnd' ha hk

/-- Distinct keys make the key function injective on list members. -/
theorem key_inj {g : α → Nat} {l : List α} (hnd : (l.map g).Nodup)
    {a b : α} (ha : a ∈ l) (hb : b ∈ l) (h : g a = g b) : a = b :=
  List.inj_on_of_nodup_map hnd ha hb h

/-- Splitting a filter count along a sub-predicate. -/
theorem length_filter_split {p q : α → Bool} :
    ∀ (l : List α), (∀ a ∈ l, q a = true → p a = true) →
      (l.filter p).length =
        (l.filter q).length + (l.filter (fun a => p a && !q a)).length := by
  intro l
  induction l with
  | nil => intro _; rfl
  | cons x xs ih =>
      intro h
      have ih' := ih fun a ha => h a (by simp [ha])
      by_cases hq : q x = true
      · have hp : p x = true := h x (by simp) hq
        simp [List.filter_cons, hp, hq, ih']
        omega
      · simp only [Bool.not_eq_true] at hq
        by_cases hp : p x = true
        · simp [List.filter_cons, hp, hq, ih']
          omega
        · simp only [Bool.not_eq_true] at hp
          simp [List.filter_cons, hp, hq, ih']

/-! ## The descendant-collection worklist loop -/

theorem mem_childIds {cs : List CommentDoc} {cur x : Nat} :
    x ∈ childIds cs cur ↔ ∃ c, c ∈ cs ∧ c.parentId = some cur ∧ c._id = x := by
  constructor
  · intro hx
    simp only [childIds, List.mem_map, List.mem_filter, decide_eq_true_eq] at hx
    obtain ⟨c, ⟨hc, hp⟩, rfl⟩ := hx
    exact ⟨c, hc, hp, rfl⟩
  · rintro ⟨c, hc, hp, rfl⟩
    simp only [childIds, List.mem_map, List.mem_filter, decide_eq_true_eq]
    exact ⟨c, ⟨hc, hp⟩, rfl⟩

theorem childIds_nodup {cs : List CommentDoc}
    (hnd : (cs.map CommentDoc._id).Nodup) (cur : Nat) :
    (childIds cs cur).Nodup :=
  hnd.sublist ((List.filter_sublist cs).map CommentDoc._id)

theorem comment_id_mem_childIds {cs : List CommentDoc}
    (hnd : (cs.map CommentDoc._id).Nodup)
    {c : CommentDoc} (hc : c ∈ cs) {cur : Nat} :
    c._id ∈ childIds cs cur ↔ c.parentId = some cur := by
  constructor
  · intro h
    obtain ⟨c', hc', hp', hid⟩ := mem_childIds.mp h
    exact key_inj hnd hc' hc hid ▸ hp'
  · intro hp
    exact mem_childIds.mpr ⟨c, hc, hp, rfl⟩

/-- The loop invariant of `deleteComment`'s worklist traversal.  `pr` is the
list of already-processed queue entries, `q` the pending queue; the collected
list is always `pr ++ q`.  Under distinct comment ids and parent ids strictly
below child ids (comments only ever reference previously created parents), the
loop terminates within fuel `q.length + (number of uncollected comments)` and
returns a duplicate-free list containing exactly the descendants of `t`. -/
theorem collectLoop_invariant
    {cs : List CommentDoc} {t : Nat}
    (hnd : (cs.map CommentDoc._id).Nodup)
    (hlt : ∀ c ∈ cs, ∀ p, c.parentId = some p → p < c._id) :
    ∀ (fuel : Nat) (pr q : List Nat),
      t ∈ pr ++ q →
      (pr ++ q).Nodup →
      (∀ x ∈ pr ++ q, x = t ∨ ∃ c ∈ cs, c._id = x ∧ ∃ p, c.parentId = some p ∧ p ∈ pr) →
      (∀ x ∈ pr ++ q, t ≤ x) →
      (∀ c ∈ cs, ∀ p, c.parentId = some p → p ∈ pr → c._id ∈ pr ++ q) →
      (∀ x ∈ pr ++ q, Desc cs t x) →
      q.length + (cs.filter (fun c => decide (c._id ∉ pr ++ q))).length ≤ fuel →
      ∃ res, collectLoop cs fuel (pr ++ q) q = some res ∧ res.Nodup ∧
        (∀ x, x ∈ res ↔ Desc cs t x) := by
  intro fuel
  induction fuel with
  | zero =>
      intro pr q hmem hnodup horigin hlb hclosed hdesc hfuel
      have hq : q = [] := by
        cases q with
        | nil => rfl
        | cons a as => simp at hfuel
      subst hq
      refine ⟨pr ++ [], rfl, hnodup, fun x => ⟨hdesc x, ?_⟩⟩
      intro hd
      induction hd with
      | base => exact hmem
      | step hc hp _ ih =>
          exact hclosed _ hc _ hp (by simpa using ih)
  | succ n ih =>
      intro pr q hmem hnodup horigin hlb hclosed hdesc hfuel
      cases q with
      | nil =>
          refine ⟨pr ++ [], rfl, hnodup, fun x => ⟨hdesc x, ?_⟩⟩
          intro hd
          induction hd with
          | base => exact hmem
          | step hc hp _ ih' =>
              exact hclosed _ hc _ hp (by simpa using ih')
      | cons cur rest =>
          have hcur_mem : cur ∈ pr ++ cur :: rest := by simp
          have hcur_notin_pr : cur ∉ pr := by
            intro h
            exact (List.nodup_append.mp hnodup).2.2 h (by simp)
          -- the key step: the children of `cur` have not been collected yet
          have hnew : ∀ x ∈ childIds cs cur, x ∉ pr ++ cur :: rest := by
            intro x hx hxcol
            obtain ⟨c, hc, hp, rfl⟩ := mem_childIds.mp hx
            have hcurlt : cur < c._id := hlt c hc cur hp
            rcases horigin _ hxcol with ht | ⟨c', hc', hid', p', hp', hp'pr⟩
            · have : t ≤ cur := hlb cur hcur_mem
              omega
            · have hcc : c' = c := key_inj hnd hc' hc hid'
              subst hcc
              rw [hp] at hp'
              have : p' = cur := by injection hp'.symm
              exact hcur_notin_pr (this ▸ hp'pr)
          have hchnd : (childIds cs cur).Nodup := childIds_nodup hnd cur
          -- all six invariants for the extended collected list
          have inv1 : t ∈ (pr ++ cur :: rest) ++ childIds cs cur :=
            List.mem_append_left _ hmem
          have inv2 : ((pr ++ cur :: rest) ++ childIds cs cur).Nodup :=
            List.nodup_append.mpr ⟨hnodup, hchnd, fun a ha hcha => hnew a hcha ha⟩
          have inv3 : ∀ x ∈ (pr ++ cur :: rest) ++ childIds cs cur,
              x = t ∨ ∃ c ∈ cs, c._id = x ∧ ∃ p, c.parentId = some p ∧ p ∈ pr ++ [cur] := by
            intro x hx
            rcases List.mem_append.mp hx with hx | hx
            · rcases horigin x hx with ht | ⟨c, hc, hid, p, hp, hppr⟩
              · exact Or.inl ht
              · exact Or.inr ⟨c, hc, hid, p, hp, List.mem_append_left _ hppr⟩
            · obtain ⟨c, hc, hp, rfl⟩ := mem_childIds.mp hx
              exact Or.inr ⟨c, hc, rfl, cur, hp, by simp⟩
          have inv4 : ∀ x ∈ (pr ++ cur :: rest) ++ childIds cs cur, t ≤ x := by
            intro x hx
            rcases List.mem_append.mp hx with hx | hx
            · exact hlb x hx
            · obtain ⟨c, hc, hp, rfl⟩ := mem_childIds.mp hx
              have := hlt c hc cur hp
              have := hlb cur hcur_mem
              omega
          have inv5 : ∀ c ∈ cs, ∀ p, c.parentId = some p → p ∈ pr ++ [cur] →
              c._id ∈ (pr ++ cur :: rest) ++ childIds cs cur := by
            intro c hc p hp hppr
            rcases List.mem_append.mp hppr with hppr | hppr
            · exact List.mem_append_left _ (hclosed c hc p hp hppr)
            · have : p = cur := by simpa using hppr
              subst this
              exact List.mem_append_right _ (mem_childIds.mpr ⟨c, hc, hp, rfl⟩)
          have inv6 : ∀ x ∈ (pr ++ cur :: rest) ++ childIds cs cur, Desc cs t x := by
            intro x hx
            rcases List.mem_append.mp hx with hx | hx
            · exact hdesc x hx
            · obtain ⟨c, hc, hp, rfl⟩ := mem_childIds.mp hx
              exact Desc.step hc hp (hdesc cur hcur_mem)
          -- the fuel bound for the next iteration
          have hcount : (cs.filter (fun c => decide (c._id ∉ pr ++ cur :: rest))).length =
              (childIds cs cur).length +
              (cs.filter (fun c => decide (c._id ∉ (pr ++ cur :: rest) ++ childIds cs cur))).length := by
            have hsplit := length_filter_split (p := fun c => decide (c._id ∉ pr ++ cur :: rest))
              (q := fun c => decide (c.parentId = some cur)) cs
              (fun c hc hq => by
                have hp : c.parentId = some cur := of_decide_eq_true hq
                exact decide_eq_true (hnew c._id (mem_childIds.mpr ⟨c, hc, hp, rfl⟩)))
            have hqlen : (cs.filter (fun c => decide (c.parentId = some cur))).length =
                (childIds cs cur).length := by
              simp [childIds]
            have hcongr : cs.filter (fun c =>
                  decide (c._id ∉ pr ++ cur :: rest) && !decide (c.parentId = some cur)) =
                cs.filter (fun c => decide (c._id ∉ (pr ++ cur :: rest) ++ childIds cs cur)) := by
              apply List.filter_congr
              intro c hc
              have hiff : c._id ∈ childIds cs cur ↔ c.parentId = some cur :=
                comment_id_mem_childIds hnd hc
              rw [Bool.eq_iff_iff]
              simp only [Bool.and_eq_true, Bool.not_eq_true', decide_eq_true_eq,
                decide_eq_false_iff_not, List.mem_append, hiff]
              tauto
            rw [hsplit, hqlen, hcongr]
          have hfuel' : (rest ++ childIds cs cur).length +
              (cs.filter (fun c =>
                decide (c._id ∉ (pr ++ cur :: rest) ++ childIds cs cur))).length ≤ n := by
            simp only [List.length_append, List.length_cons] at hfuel ⊢
            omega
          -- apply the induction hypothesis at (pr ++ [cur], rest ++ children)
          have hkey : (pr ++ cur :: rest) ++ childIds cs cur =
              (pr ++ [cur]) ++ (rest ++ childIds cs cur) := by simp
          obtain ⟨res, hres, hresnd, hresiff⟩ :=
            ih (pr ++ [cur]) (rest ++ childIds cs cur)
              (hkey ▸ inv1) (hkey ▸ inv2)
              (fun x hx => inv3 x (hkey ▸ hx))
              (fun x hx => inv4 x (hkey ▸ hx))
              (fun c hc p hp hppr => hkey ▸ inv5 c hc p hp hppr)
              (fun x hx => inv6 x (hkey ▸ hx))
              (hkey ▸ hfuel')
          refine ⟨res, ?_, hresnd, hresiff⟩
          show collectLoop cs (n + 1) (pr ++ cur :: rest) (cur :: rest) = some res
          rw [collectLoop, hkey]
          exact hres

/-- With fuel `comments.length + 1`, the worklist loop started on `[t]`
terminates and returns a duplicate-free enumeration of the descendant set. -/
theorem collectLoop_correct
    {cs : List CommentDoc} {t : Nat}
    (hnd : (cs.map CommentDoc._id).Nodup)
    (hlt : ∀ c ∈ cs, ∀ p, c.parentId = some p → p < c._id) :
    ∃ res, collectLoop cs (cs.length + 1) [t] [t] = some res ∧ res.Nodup ∧
      (∀ x, x ∈ res ↔ Desc cs t x) := by
  have hfuel : ([t] : List Nat).length +
      (cs.filter (fun c => decide (c._id ∉ ([] : List Nat) ++ [t]))).length ≤
        cs.length + 1 := by
    have := List.length_filter_le (fun c => decide (c._id ∉ ([] : List Nat) ++ [t])) cs
    simp only [List.length_cons, List.length_nil]
    omega
  have h := collectLoop_invariant (t := t) hnd hlt (cs.length + 1) [] [t]
    (by simp) (by simp)
    (fun x hx => Or.inl (by simpa using hx))
    (fun x hx => by
      have : x = t := by simpa using hx
      omega)
    (fun c hc p hp hppr => absurd hppr (by simp))
    (fun x hx => by
      have : x = t := by simpa using hx
      exact this ▸ Desc.base)
    hfuel
  exact h

/-! ## More update lemmas and `deleteComment` inversion -/

theorem forall₂_updateFirst {p : α → Bool} {f : α → α} :
    ∀ (l : List α), List.Forall₂ (fun a b => b = a ∨ (p a = true ∧ b = f a))
      l (updateFirst p f l) := by
  intro l
  induction l with
  | nil => exact List.Forall₂.nil
  | cons x xs ih =>
      by_cases hx : p x = true
      · simp only [updateFirst, hx, if_true]
        exact List.Forall₂.cons (Or.inr ⟨hx, rfl⟩)
          (List.forall₂_same.mpr fun a _ => Or.inl rfl)
      · simp only [Bool.not_eq_true] at hx
        simp only [updateFirst, hx, Bool.false_eq_true, if_false]
        exact List.Forall₂.cons (Or.inl rfl) ih

theorem updateFirst_map (p : α → Bool) (f : α → α) (g : α → β)
    (hf : ∀ x, g (f x) = g x) :
    ∀ (l : List α), (updateFirst p f l).map g = l.map g := by
  intro l
  induction l with
  | nil => rfl
  | cons x xs ih =>
      by_cases hx : p x = true
      · simp [updateFirst, hx, hf]
      · simp only [Bool.not_eq_true] at hx
        simp [updateFirst, hx, ih]

theorem updateFirst_countP (p : α → Bool) (f : α → α) (pred : α → Bool)
    (hf : ∀ x, pred (f x) = pred x) :
    ∀ (l : List α), (updateFirst p f l).countP pred = l.countP pred := by
  intro l
  induction l with
  | nil => rfl
  | cons x xs ih =>
      by_cases hx : p x = true
      · simp [updateFirst, hx, List.countP_cons, hf]
      · simp only [Bool.not_eq_true] at hx
        simp [updateFirst, hx, List.countP_cons, ih]

/-- Inversion of a successful `deleteComment` call: the target resolved, the
requestor is its author, the worklist loop produced a collected list `res`,
and the final state is the input state with the comments in `res`, the
reactions targeting `res`, and (for a top-level target) the target's thread
membership removed. -/
theorem deleteComment_success_inv
    {s : State} {requestor target : Nat} {s' : State}
    (hdel : deleteComment s requestor target = some (.ok (), s')) :
    ∃ tc res, s.comments.find? (fun c => decide (c._id = target)) = some tc ∧
      tc.author = requestor ∧
      collectLoop s.comments (s.comments.length + 1) [target] [target] = some res ∧
      s'.comments = s.comments.filter (fun c => decide (c._id ∉ res)) ∧
      s'.reactions = s.reactions.filter (fun r => decide (r.targetCommentId ∉ res)) ∧
      s'.nextId = s.nextId ∧
      (tc.parentId = none →
        s'.threads = updateFirst (fun t => decide (t._id = tc.threadId))
          (fun t => { t with topLevelCommentIds :=
              t.topLevelCommentIds.filter (fun x => decide (x ≠ target)) })
          s.threads) ∧
      (∀ p, tc.parentId = some p → s'.threads = s.threads) := by
  cases hfind : s.comments.find? (fun c => decide (c._id = target)) with
  | none =>
      rw [deleteComment, hfind] at hdel
      simp at hdel
  | some tc =>
      rw [deleteComment, hfind] at hdel
      by_cases hauth : tc.author = requestor
      · simp only [hauth, ne_eq, not_true_eq_false, if_false] at hdel
        cases hloop : collectLoop s.comments (s.comments.length + 1) [target] [target] with
        | none => rw [hloop] at hdel; simp at hdel
        | some res =>
            rw [hloop] at hdel
            simp only [Option.some.injEq, Prod.mk.injEq] at hdel
            obtain ⟨-, hs'⟩ := hdel
            refine ⟨tc, res, rfl, hauth, rfl, ?_, ?_, ?_, ?_, ?_⟩ <;>
              cases hpar : tc.parentId <;>
                simp [hpar, ← hs']
      · simp only [ne_eq, hauth, not_false_eq_true, if_true] at hdel
        simp at hdel

/-- Forward form: a resolving target whose author is the requestor makes
`deleteComment` succeed, and under well-formed comments the removed documents
are exactly the descendant set of the target. -/
theorem deleteComment_success
    {s : State} {requestor target : Nat} {tc : CommentDoc}
    (hndC : (s.comments.map CommentDoc._id).Nodup)
    (hlt : ∀ c ∈ s.comments, ∀ p, c.parentId = some p → p < c._id)
    (hfind : s.comments.find? (fun c => decide (c._id = target)) = some tc)
    (hauth : tc.author = requestor) :
    ∃ s', deleteComment s requestor target = some (.ok (), s') ∧
      (∀ c, c ∈ s'.comments ↔ c ∈ s.comments ∧ ¬ Desc s.comments target c._id) ∧
      (∀ r, r ∈ s'.reactions ↔
        r ∈ s.reactions ∧ ¬ Desc s.comments target r.targetCommentId) ∧
      s'.nextId = s.nextId ∧
      (tc.parentId = none →
        s'.threads = updateFirst (fun t => decide (t._id = tc.threadId))
          (fun t => { t with topLevelCommentIds :=
              t.topLevelCommentIds.filter (fun x => decide (x ≠ target)) }) s.threads) ∧
      (∀ p, tc.parentId = some p → s'.threads = s.threads) := by
  obtain ⟨res, hloop, hresnd, hresiff⟩ := collectLoop_correct (t := target) hndC hlt
  rw [deleteComment, hfind]
  simp only [hauth, ne_eq, not_true_eq_false, if_false, hloop]
  refine ⟨_, rfl, ?_, ?_, rfl, ?_, ?_⟩
  · intro c
    simp [List.mem_filter, hresiff]
  · intro r
    simp [List.mem_filter, hresiff]
  · intro hnone
    simp only [hnone]
  · intro p hp
    simp only [hp]

/-! ## Preservation of well-formedness -/

theorem not_mem_of_lt {l : List Nat} {n : Nat} (h : ∀ x ∈ l, x < n) : n ∉ l :=
  fun hm => absurd (h n hm) (lt_irrefl n)

theorem nodup_snoc {l : List Nat} {n : Nat} (h : l.Nodup) (hn : n ∉ l) :
    (l ++ [n]).Nodup := by
  simp [List.nodup_append, h, hn]

theorem mem_updateFirst_shape {p : α → Bool} {f : α → α} {b : α} {l : List α}
    (hb : b ∈ updateFirst p f l) : ∃ a ∈ l, b = a ∨ b = f a := by
  rcases mem_updateFirst hb with h | ⟨a, ha, _, rfl⟩
  · exact ⟨b, h, Or.inl rfl⟩
  · exact ⟨a, ha, Or.inr rfl⟩

/-- Appending a freshly numbered comment preserves the replies-stay-in-thread
property, provided the new comment's parent (when present) is an existing
comment of the same thread. -/
theorem parentSameThread_snoc
    {cs : List CommentDoc} {newC : CommentDoc} {N : Nat}
    (hidsLt : ∀ c ∈ cs, c._id < N)
    (hlt : ∀ c ∈ cs, ∀ p, c.parentId = some p → p < c._id)
    (hps : ∀ c ∈ cs, ∀ p, c.parentId = some p →
      ∀ d ∈ cs, d._id = p → d.threadId = c.threadId)
    (hid : newC._id = N)
    (hpar : ∀ p, newC.parentId = some p →
      p < N ∧ ∀ d ∈ cs, d._id = p → d.threadId = newC.threadId) :
    ∀ c ∈ cs ++ [newC], ∀ p, c.parentId = some p →
      ∀ d ∈ cs ++ [newC], d._id = p → d.threadId = c.threadId := by
  intro c hc p hp d hd hdp
  simp only [List.mem_append, List.mem_singleton] at hc hd
  rcases hc with hc | rfl
  · rcases hd with hd | rfl
    · exact hps c hc p hp d hd hdp
    · exfalso
      have h1 := hlt c hc p hp
      have h2 := hidsLt c hc
      omega
  · rcases hd with hd | rfl
    · exact (hpar p hp).2 d hd hdp
    · exfalso
      have := (hpar p hp).1
      omega

theorem postComment_none_eq {s : State} {author book sect : Nat} {body : String}
    (hf : s.threads.find? (fun t => decide (t.book = book ∧ t.sectionId = sect)) = none) :
    postComment s author book sect body =
      (s.nextId + 1,
        { threads := updateFirst (fun t => decide (t._id = s.nextId))
            (fun t => { t with topLevelCommentIds :=
                t.topLevelCommentIds ++ [s.nextId + 1] })
            (s.threads ++ [{ _id := s.nextId
                             book := book
                             sectionId := sect
                             topLevelCommentIds := [] }])
          comments := s.comments ++
            [{ _id := s.nextId + 1
               author := author
               body := body
               threadId := s.nextId
               parentId := none
               reactionIds := [] }]
          reactions := s.reactions
          nextId := s.nextId + 2 }) := by
  rw [postComment, hf]

theorem postComment_some_eq {s : State} {author book sect : Nat} {body : String}
    {td : ThreadDoc}
    (hf : s.threads.find? (fun t => decide (t.book = book ∧ t.sectionId = sect)) = some td) :
    postComment s author book sect body =
      (s.nextId,
        { threads := updateFirst (fun t => decide (t._id = td._id))
            (fun t => { t with topLevelCommentIds :=
                t.topLevelCommentIds ++ [s.nextId] })
            s.threads
          comments := s.comments ++
            [{ _id := s.nextId
               author := author
               body := body
               threadId := td._id
               parentId := none
               reactionIds := [] }]
          reactions := s.reactions
          nextId := s.nextId + 1 }) := by
  rw [postComment, hf]

theorem postComment_none_snd {s : State} {author book sect : Nat} {body : String}
    (hf : s.threads.find? (fun t => decide (t.book = book ∧ t.sectionId = sect)) = none) :
    (postComment s author book sect body).2 =
      { threads := updateFirst (fun t => decide (t._id = s.nextId))
          (fun t => { t with topLevelCommentIds :=
              t.topLevelCommentIds ++ [s.nextId + 1] })
          (s.threads ++ [{ _id := s.nextId
                           book := book
                           sectionId := sect
                           topLevelCommentIds := [] }])
        comments := s.comments ++
          [{ _id := s.nextId + 1
             author := author
             body := body
             threadId := s.nextId
             parentId := none
             reactionIds := [] }]
        reactions := s.reactions
        nextId := s.nextId + 2 } := by
  rw [postComment_none_eq hf]

theorem postComment_some_snd {s : State} {author book sect : Nat} {body : String}
    {td : ThreadDoc}
    (hf : s.threads.find? (fun t => decide (t.book = book ∧ t.sectionId = sect)) = some td) :
    (postComment s author book sect body).2 =
      { threads := updateFirst (fun t => decide (t._id = td._id))
          (fun t => { t with topLevelCommentIds :=
              t.topLevelCommentIds ++ [s.nextId] })
          s.threads
        comments := s.comments ++
          [{ _id := s.nextId
             author := author
             body := body
             threadId := td._id
             parentId := none
             reactionIds := [] }]
        reactions := s.reactions
        nextId := s.nextId + 1 } := by
  rw [postComment_some_eq hf]

theorem threadCount_eq_countP (s : State) (b sec : Nat) :
    threadCount s b sec =
      s.threads.countP (fun t => decide (t.book = b ∧ t.sectionId = sec)) := by
  unfold threadCount
  rw [List.countP_eq_length_filter]

theorem wf_postComment {s : State} (h : WF s)
    (author book sect : Nat) (body : String) :
    WF (postComment s author book sect body).2 := by
  have hcb : ∀ x ∈ s.comments.map CommentDoc._id, x < s.nextId := by
    intro x hx
    obtain ⟨c, hc, rfl⟩ := List.mem_map.mp hx
    exact h.commentIdsLt c hc
  have htb : ∀ x ∈ s.threads.map ThreadDoc._id, x < s.nextId := by
    intro x hx
    obtain ⟨t, ht, rfl⟩ := List.mem_map.mp hx
    exact h.threadIdsLt t ht
  cases hf : s.threads.find? (fun t => decide (t.book = book ∧ t.sectionId = sect)) with
  | none =>
      rw [postComment_none_snd hf]
      refine ⟨?_, ?_, ?_, ?_, ?_, ?_, ?_, ?_, ?_, ?_, ?_⟩
      · intro t ht
        obtain ⟨a, ha, hcase⟩ := mem_updateFirst_shape ht
        have hid : t._id = a._id := by rcases hcase with rfl | rfl <;> rfl
        rw [hid]
        rcases List.mem_append.mp ha with ha | ha
        · have := h.threadIdsLt a ha
          show a._id < s.nextId + 2
          omega
        · simp only [List.mem_singleton] at ha
          subst ha
          show s.nextId < s.nextId + 2
          omega
      · intro c hc
        rcases List.mem_append.mp hc with hc | hc
        · have := h.commentIdsLt c hc
          show c._id < s.nextId + 2
          omega
        · simp only [List.mem_singleton] at hc
          subst hc
          show s.nextId + 1 < s.nextId + 2
          omega
      · intro r hr
        have := h.reactionIdsLt r hr
        show r._id < s.nextId + 2
        omega
      · intro c hc rid hrid
        rcases List.mem_append.mp hc with hc | hc
        · have := h.reactionListIdsLt c hc rid hrid
          show rid < s.nextId + 2
          omega
        · simp only [List.mem_singleton] at hc
          subst hc
          simp at hrid
      · intro r hr
        have := h.reactionTargetsLt r hr
        show r.targetCommentId < s.nextId + 2
        omega
      · rw [updateFirst_map (fun t => decide (t._id = s.nextId))
            (fun t => { t with topLevelCommentIds :=
              t.topLevelCommentIds ++ [s.nextId + 1] })
            ThreadDoc._id (fun x => rfl), List.map_append]
        exact nodup_snoc h.threadIdsNodup (not_mem_of_lt htb)
      · rw [List.map_append]
        exact nodup_snoc h.commentIdsNodup
          (not_mem_of_lt (n := s.nextId + 1)
            fun x hx => by have := hcb x hx; omega)
      · intro c hc p hp
        rcases List.mem_append.mp hc with hc | hc
        · exact h.parentLt c hc p hp
        · simp only [List.mem_singleton] at hc
          subst hc
          exact Option.noConfusion hp
      · intro c hc p hp d hd hdp
        refine parentSameThread_snoc (N := s.nextId + 1)
          (fun c hc => by have := h.commentIdsLt c hc; omega)
          h.parentLt h.parentSameThread rfl
          (fun p hp => Option.noConfusion hp) c hc p hp d hd hdp
      · intro b sec
        rw [threadCount_eq_countP]
        simp only []
        rw [updateFirst_countP (fun (t : ThreadDoc) => decide (t._id = s.nextId))
            (fun t => { t with topLevelCommentIds :=
              t.topLevelCommentIds ++ [s.nextId + 1] })
            (fun t => decide (t.book = b ∧ t.sectionId = sec)) (fun x => rfl),
          List.countP_append]
        have h0 := h.threadCountLe b sec
        rw [threadCount_eq_countP] at h0
        by_cases hmatch : book = b ∧ sect = sec
        · obtain ⟨rfl, rfl⟩ := hmatch
          have h00 : s.threads.countP
              (fun t => decide (t.book = book ∧ t.sectionId = sect)) = 0 := by
            rw [List.countP_eq_zero]
            intro t ht
            rw [List.find?_eq_none] at hf
            exact hf t ht
          rw [h00]
          simp
        · have h1 : List.countP (fun t => decide (t.book = b ∧ t.sectionId = sec))
              [({ _id := s.nextId
                  book := book
                  sectionId := sect
                  topLevelCommentIds := [] } : ThreadDoc)] = 0 := by
            simp only [List.countP_cons, List.countP_nil]
            simpa using hmatch
          rw [h1]
          omega
      · intro c hc rid
        rcases List.mem_append.mp hc with hc | hc
        · exact h.reactionLink c hc rid
        · simp only [List.mem_singleton] at hc
          subst hc
          simp only [List.not_mem_nil, false_iff]
          rintro ⟨r, hr, -, htar⟩
          have hb := h.reactionTargetsLt r hr
          have htar' : r.targetCommentId = s.nextId + 1 := htar
          omega
  | some td =>
      rw [postComment_some_snd hf]
      refine ⟨?_, ?_, ?_, ?_, ?_, ?_, ?_, ?_, ?_, ?_, ?_⟩
      · intro t ht
        obtain ⟨a, ha, hcase⟩ := mem_updateFirst_shape ht
        have hid : t._id = a._id := by rcases hcase with rfl | rfl <;> rfl
        rw [hid]
        have := h.threadIdsLt a ha
        show a._id < s.nextId + 1
        omega
      · intro c hc
        rcases List.mem_append.mp hc with hc | hc
        · have := h.commentIdsLt c hc
          show c._id < s.nextId + 1
          omega
        · simp only [List.mem_singleton] at hc
          subst hc
          show s.nextId < s.nextId + 1
          omega
      · intro r hr
        have := h.reactionIdsLt r hr
        show r._id < s.nextId + 1
        omega
      · intro c hc rid hrid
        rcases List.mem_append.mp hc with hc | hc
        · have := h.reactionListIdsLt c hc rid hrid
          show rid < s.nextId + 1
          omega
        · simp only [List.mem_singleton] at hc
          subst hc
          simp at hrid
      · intro r hr
        have := h.reactionTargetsLt r hr
        show r.targetCommentId < s.nextId + 1
        omega
      · rw [updateFirst_map (fun t => decide (t._id = td._id))
            (fun t => { t with topLevelCommentIds :=
              t.topLevelCommentIds ++ [s.nextId] })
            ThreadDoc._id (fun x => rfl)]
        exact h.threadIdsNodup
      · rw [List.map_append]
        exact nodup_snoc h.commentIdsNodup (not_mem_of_lt hcb)
      · intro c hc p hp
        rcases List.mem_append.mp hc with hc | hc
        · exact h.parentLt c hc p hp
        · simp only [List.mem_singleton] at hc
          subst hc
          exact Option.noConfusion hp
      · intro c hc p hp d hd hdp
        refine parentSameThread_snoc (N := s.nextId)
          h.commentIdsLt h.parentLt h.parentSameThread rfl
          (fun p hp => Option.noConfusion hp) c hc p hp d hd hdp
      · intro b sec
        rw [threadCount_eq_countP]
        simp only []
        rw [updateFirst_countP (fun (t : ThreadDoc) => decide (t._id = td._id))
            (fun t => { t with topLevelCommentIds :=
              t.topLevelCommentIds ++ [s.nextId] })
            (fun t => decide (t.book = b ∧ t.sectionId = sec)) (fun x => rfl)]
        have h0 := h.threadCountLe b sec
        rw [threadCount_eq_countP] at h0
        exact h0
      · intro c hc rid
        rcases List.mem_append.mp hc with hc | hc
        · exact h.reactionLink c hc rid
        · simp only [List.mem_singleton] at hc
          subst hc
          simp only [List.not_mem_nil, false_iff]
          rintro ⟨r, hr, -, htar⟩
          have hb := h.reactionTargetsLt r hr
          have htar' : r.targetCommentId = s.nextId := htar
          omega

theorem wf_reply {s : State} (h : WF s) (author parent : Nat) (body : String) :
    WF (reply s author parent body).2 := by
  cases hfind : s.comments.find? (fun c => decide (c._id = parent)) with
  | none =>
      have hs2 : (reply s author parent body).2 = s := by rw [reply, hfind]
      rw [hs2]
      exact h
  | some pc =>
      have hpc_mem : pc ∈ s.comments := List.mem_of_find?_eq_some hfind
      have hpc_id : pc._id = parent := by
        have := List.find?_some hfind
        simpa using this
      have hs2 : (reply s author parent body).2 =
          { s with
            comments := s.comments ++
              [{ _id := s.nextId
                 author := author
                 body := body
                 threadId := pc.threadId
                 parentId := some parent
                 reactionIds := [] }]
            nextId := s.nextId + 1 } := by
        rw [reply, hfind]
      rw [hs2]
      refine ⟨?_, ?_, ?_, ?_, ?_, ?_, ?_, ?_, ?_, ?_, ?_⟩
      · intro t ht
        have := h.threadIdsLt t ht
        show t._id < s.nextId + 1
        omega
      · intro c hc
        rcases List.mem_append.mp hc with hc | hc
        · have := h.commentIdsLt c hc
          show c._id < s.nextId + 1
          omega
        · simp only [List.mem_singleton] at hc
          subst hc
          show s.nextId < s.nextId + 1
          omega
      · intro r hr
        have := h.reactionIdsLt r hr
        show r._id < s.nextId + 1
        omega
      · intro c hc rid hrid
        rcases List.mem_append.mp hc with hc | hc
        · have := h.reactionListIdsLt c hc rid hrid
          show rid < s.nextId + 1
          omega
        · simp only [List.mem_singleton] at hc
          subst hc
          simp at hrid
      · intro r hr
        have := h.reactionTargetsLt r hr
        show r.targetCommentId < s.nextId + 1
        omega
      · exact h.threadIdsNodup
      · rw [List.map_append]
        exact nodup_snoc h.commentIdsNodup
          (not_mem_of_lt fun x hx => by
            obtain ⟨c, hc, rfl⟩ := List.mem_map.mp hx
            exact h.commentIdsLt c hc)
      · intro c hc p hp
        rcases List.mem_append.mp hc with hc | hc
        · exact h.parentLt c hc p hp
        · simp only [List.mem_singleton] at hc
          subst hc
          obtain rfl : parent = p := by simpa using hp
          have := h.commentIdsLt pc hpc_mem
          show parent < s.nextId
          omega
      · intro c hc p hp d hd hdp
        refine parentSameThread_snoc (N := s.nextId)
          h.commentIdsLt h.parentLt h.parentSameThread rfl ?_ c hc p hp d hd hdp
        intro p hp
        obtain rfl : parent = p := by simpa using hp
        constructor
        · have := h.commentIdsLt pc hpc_mem
          omega
        · intro d hd hdp
          have : d = pc := key_inj h.commentIdsNodup hd hpc_mem (by rw [hdp, hpc_id])
          subst this
          rfl
      · intro b sec
        exact h.threadCountLe b sec
      · intro c hc rid
        rcases List.mem_append.mp hc with hc | hc
        · exact h.reactionLink c hc rid
        · simp only [List.mem_singleton] at hc
          subst hc
          simp only [List.not_mem_nil, false_iff]
          rintro ⟨r, hr, -, htar⟩
          have hb := h.reactionTargetsLt r hr
          have htar' : r.targetCommentId = s.nextId := htar
          omega

theorem wf_react {s : State} (h : WF s) (reactor target : Nat) (type : String) :
    WF (react s reactor target type).2 := by
  cases hfind : s.comments.find? (fun c => decide (c._id = target)) with
  | none =>
      have hs2 : (react s reactor target type).2 = s := by rw [react, hfind]
      rw [hs2]
      exact h
  | some tc =>
      cases hfr : s.reactions.find? (fun r =>
          decide (r.reactor = reactor ∧ r.targetCommentId = target ∧ r.type = type)) with
      | some r0 =>
          have hs2 : (react s reactor target type).2 = s := by rw [react, hfind, hfr]
          rw [hs2]
          exact h
      | none =>
          have htc_mem : tc ∈ s.comments := List.mem_of_find?_eq_some hfind
          have htc_id : tc._id = target := by
            have := List.find?_some hfind
            simpa using this
          have hs2 : (react s reactor target type).2 =
              { s with
                comments := updateFirst (fun c => decide (c._id = target))
                  (fun c => { c with reactionIds := c.reactionIds ++ [s.nextId] })
                  s.comments
                reactions := s.reactions ++
                  [{ _id := s.nextId
                     reactor := reactor
                     targetCommentId := target
                     type := type }]
                nextId := s.nextId + 1 } := by
            rw [react, hfind, hfr]
          rw [hs2]
          refine ⟨?_, ?_, ?_, ?_, ?_, ?_, ?_, ?_, ?_, ?_, ?_⟩
          · intro t ht
            have := h.threadIdsLt t ht
            show t._id < s.nextId + 1
            omega
          · intro c hc
            obtain ⟨c1, hc1, hcase⟩ := mem_updateFirst_shape hc
            have hid : c._id = c1._id := by rcases hcase with rfl | rfl <;> rfl
            rw [hid]
            have := h.commentIdsLt c1 hc1
            show c1._id < s.nextId + 1
            omega
          · intro r hr
            rcases List.mem_append.mp hr with hr | hr
            · have := h.reactionIdsLt r hr
              show r._id < s.nextId + 1
              omega
            · simp only [List.mem_singleton] at hr
              subst hr
              show s.nextId < s.nextId + 1
              omega
          · intro c hc rid hrid
            obtain ⟨c1, hc1, hcase⟩ := mem_updateFirst_shape hc
            rcases hcase with rfl | rfl
            · have := h.reactionListIdsLt c hc1 rid hrid
              show rid < s.nextId + 1
              omega
            · have hrid' : rid ∈ c1.reactionIds ++ [s.nextId] := hrid
              rcases List.mem_append.mp hrid' with hin | hin
              · have := h.reactionListIdsLt c1 hc1 rid hin
                show rid < s.nextId + 1
                omega
              · simp only [List.mem_singleton] at hin
                subst hin
                show s.nextId < s.nextId + 1
                omega
          · intro r hr
            rcases List.mem_append.mp hr with hr | hr
            · have := h.reactionTargetsLt r hr
              show r.targetCommentId < s.nextId + 1
              omega
            · simp only [List.mem_singleton] at hr
              subst hr
              have := h.commentIdsLt tc htc_mem
              show target < s.nextId + 1
              omega
          · exact h.threadIdsNodup
          · rw [updateFirst_map (fun c => decide (c._id = target))
              (fun c => { c with reactionIds := c.reactionIds ++ [s.nextId] })
              CommentDoc._id (fun x => rfl)]
            exact h.commentIdsNodup
          · intro c hc p hp
            obtain ⟨c1, hc1, hcase⟩ := mem_updateFirst_shape hc
            rcases hcase with rfl | rfl
            · exact h.parentLt c hc1 p hp
            · exact h.parentLt c1 hc1 p hp
          · intro c hc p hp d hd hdp
            obtain ⟨c1, hc1, hcase⟩ := mem_updateFirst_shape hc
            obtain ⟨d1, hd1, hdcase⟩ := mem_updateFirst_shape hd
            have hc1p : c1.parentId = some p := by
              rcases hcase with rfl | rfl <;> exact hp
            have hc1t : c.threadId = c1.threadId := by
              rcases hcase with rfl | rfl <;> rfl
            have hd1i : d1._id = p := by
              rcases hdcase with rfl | rfl <;> exact hdp
            have hd1t : d.threadId = d1.threadId := by
              rcases hdcase with rfl | rfl <;> rfl
            rw [hc1t, hd1t]
            exact h.parentSameThread c1 hc1 p hc1p d1 hd1 hd1i
          · intro b sec
            exact h.threadCountLe b sec
          · intro c hc rid
            rw [updateFirst_key_eq h.commentIdsNodup] at hc
            obtain ⟨c1, hc1, rfl⟩ := List.mem_map.mp hc
            have hlink := h.reactionLink c1 hc1 rid
            by_cases hkey : c1._id = target
            · rw [if_pos hkey]
              constructor
              · intro hin
                rcases List.mem_append.mp hin with hin | hin
                · obtain ⟨r, hr, hr1, hr2⟩ := hlink.mp hin
                  exact ⟨r, List.mem_append_left _ hr, hr1, hr2⟩
                · simp only [List.mem_singleton] at hin
                  subst hin
                  refine ⟨{ _id := s.nextId
                            reactor := reactor
                            targetCommentId := target
                            type := type }, List.mem_append_right _ (by simp), rfl, ?_⟩
                  show target = c1._id
                  omega
              · rintro ⟨r, hr, hr1, hr2⟩
                rcases List.mem_append.mp hr with hr | hr
                · exact List.mem_append_left _ (hlink.mpr ⟨r, hr, hr1, hr2⟩)
                · simp only [List.mem_singleton] at hr
                  subst hr
                  rw [← hr1]
                  exact List.mem_append_right _ (by simp)
            · rw [if_neg hkey]
              constructor
              · intro hin
                obtain ⟨r, hr, hr1, hr2⟩ := hlink.mp hin
                exact ⟨r, List.mem_append_left _ hr, hr1, hr2⟩
              · rintro ⟨r, hr, hr1, hr2⟩
                rcases List.mem_append.mp hr with hr | hr
                · exact hlink.mpr ⟨r, hr, hr1, hr2⟩
                · simp only [List.mem_singleton] at hr
                  subst hr
                  have htar : target = c1._id := hr2
                  exact absurd htar.symm hkey

theorem deleteComment_error_frame {s : State} {requestor target : Nat}
    {e : String} {s' : State}
    (hdel : deleteComment s requestor target = some (.error e, s')) : s' = s := by
  cases hfind : s.comments.find? (fun c => decide (c._id = target)) with
  | none =>
      rw [deleteComment, hfind] at hdel
      simp only [Option.some.injEq, Prod.mk.injEq] at hdel
      exact hdel.2.symm
  | some tc =>
      rw [deleteComment, hfind] at hdel
      by_cases hauth : tc.author = requestor
      · simp only [hauth, ne_eq, not_true_eq_false, if_false] at hdel
        cases hloop : collectLoop s.comments (s.comments.length + 1)
            [target] [target] with
        | none => rw [hloop] at hdel; simp at hdel
        | some r => rw [hloop] at hdel; simp at hdel
      · simp only [ne_eq, hauth, not_false_eq_true, if_true] at hdel
        simp only [Option.some.injEq, Prod.mk.injEq] at hdel
        exact hdel.2.symm

theorem wf_deleteComment {s : State} (h : WF s) {requestor target : Nat}
    {res : Except String Unit} {s' : State}
    (hdel : deleteComment s requestor target = some (res, s')) : WF s' := by
  cases res with
  | error e =>
      rw [deleteComment_error_frame hdel]
      exact h
  | ok u =>
      cases u
      obtain ⟨tc, resL, hfind, hauth, hloop, hcom, hrea, hnext, hthrNone, hthrSome⟩ :=
        deleteComment_success_inv hdel
      have hthreads : ∀ t ∈ s'.threads, ∃ t0 ∈ s.threads,
          t._id = t0._id ∧ t.book = t0.book ∧ t.sectionId = t0.sectionId := by
        intro t ht
        cases hpar : tc.parentId with
        | none =>
            rw [hthrNone hpar] at ht
            obtain ⟨t0, ht0, hcase⟩ := mem_updateFirst_shape ht
            rcases hcase with rfl | rfl
            · exact ⟨t, ht0, rfl, rfl, rfl⟩
            · exact ⟨t0, ht0, rfl, rfl, rfl⟩
        | some p =>
            rw [hthrSome p hpar] at ht
            exact ⟨t, ht, rfl, rfl, rfl⟩
      have hcomments : ∀ c ∈ s'.comments, c ∈ s.comments := by
        intro c hc
        rw [hcom] at hc
        exact (List.mem_filter.mp hc).1
      have hreactions : ∀ r ∈ s'.reactions, r ∈ s.reactions := by
        intro r hr
        rw [hrea] at hr
        exact (List.mem_filter.mp hr).1
      refine ⟨?_, ?_, ?_, ?_, ?_, ?_, ?_, ?_, ?_, ?_, ?_⟩
      · intro t ht
        obtain ⟨t0, ht0, hid, -, -⟩ := hthreads t ht
        rw [hid, hnext]
        exact h.threadIdsLt t0 ht0
      · intro c hc
        rw [hnext]
        exact h.commentIdsLt c (hcomments c hc)
      · intro r hr
        rw [hnext]
        exact h.reactionIdsLt r (hreactions r hr)
      · intro c hc rid hrid
        rw [hnext]
        exact h.reactionListIdsLt c (hcomments c hc) rid hrid
      · intro r hr
        rw [hnext]
        exact h.reactionTargetsLt r (hreactions r hr)
      · cases hpar : tc.parentId with
        | none =>
            rw [hthrNone hpar]
            rw [updateFirst_map (fun t => decide (t._id = tc.threadId))
              (fun t => { t with topLevelCommentIds :=
                t.topLevelCommentIds.filter (fun x => decide (x ≠ target)) })
              ThreadDoc._id (fun x => rfl)]
            exact h.threadIdsNodup
        | some p =>
            rw [hthrSome p hpar]
            exact h.threadIdsNodup
      · rw [hcom]
        exact h.commentIdsNodup.sublist
          ((List.filter_sublist s.comments).map CommentDoc._id)
      · intro c hc p hp
        exact h.parentLt c (hcomments c hc) p hp
      · intro c hc p hp d hd hdp
        exact h.parentSameThread c (hcomments c hc) p hp d (hcomments d hd) hdp
      · intro b sec
        cases hpar : tc.parentId with
        | none =>
            rw [threadCount_eq_countP, hthrNone hpar,
              updateFirst_countP (fun (t : ThreadDoc) => decide (t._id = tc.threadId))
                (fun t => { t with topLevelCommentIds :=
                  t.topLevelCommentIds.filter (fun x => decide (x ≠ target)) })
                (fun t => decide (t.book = b ∧ t.sectionId = sec)) (fun x => rfl)]
            have h0 := h.threadCountLe b sec
            rw [threadCount_eq_countP] at h0
            exact h0
        | some p =>
            rw [threadCount_eq_countP, hthrSome p hpar]
            have h0 := h.threadCountLe b sec
            rw [threadCount_eq_countP] at h0
            exact h0
      · intro c hc rid
        have hcold := hcomments c hc
        have hcid : c._id ∉ resL := by
          rw [hcom] at hc
          have := (List.mem_filter.mp hc).2
          simpa using this
        rw [hrea]
        constructor
        · intro hin
          obtain ⟨r, hr, hr1, hr2⟩ := (h.reactionLink c hcold rid).mp hin
          refine ⟨r, List.mem_filter.mpr ⟨hr, ?_⟩, hr1, hr2⟩
          simpa [hr2] using hcid
        · rintro ⟨r, hr, hr1, hr2⟩
          exact (h.reactionLink c hcold rid).mpr
            ⟨r, (List.mem_filter.mp hr).1, hr1, hr2⟩

theorem wf_init : WF State.init := by
  refine ⟨?_, ?_, ?_, ?_, ?_, ?_, ?_, ?_, ?_, ?_, ?_⟩ <;>
    simp [State.init, ParentSameThread, threadCount]

theorem reachable_wf {s : State} (h : Reachable s) : WF s := by
  induction h with
  | init => exact wf_init
  | post author book sect body _ ih => exact wf_postComment ih author book sect body
  | rep author parent body _ ih => exact wf_reply ih author parent body
  | rea reactor target type _ ih => exact wf_react ih reactor target type
  | del requestor target _ hdel ih => exact wf_deleteComment ih hdel

theorem parentLt_of_all {cs : List CommentDoc}
    (h : cs.all (fun c => c.parentId.all (fun p => decide (p < c._id))) = true) :
    ∀ c ∈ cs, ∀ p, c.parentId = some p → p < c._id := by
  intro c hc p hp
  have h2 := List.all_eq_true.mp h c hc
  rw [hp] at h2
  exact of_decide_eq_true h2

/-! ## Claim theorems -/

/-- C2: `deleteComment` fails with the NotFound error when the target does
not resolve to an existing Comment, fails with the Forbidden error when the
target exists but the requestor is not the comment's author, and in both
failure cases the returned state is exactly the input state — all Threads,
Comments and Reactions unchanged, no partial deletion. -/
theorem deleteComment_notFound_forbidden_frame (s : State) (requestor target : Nat) :
    (s.comments.find? (fun c => decide (c._id = target)) = none →
      deleteComment s requestor target =
        some (.error ("Comment with ID " ++ toString target ++ " not found."), s)) ∧
    (∀ tc, s.comments.find? (fun c => decide (c._id = target)) = some tc →
      tc.author ≠ requestor →
      deleteComment s requestor target =
        some (.error ("Requestor is not the author of comment " ++
          toString target ++ "."), s)) := by
  constructor
  · intro hfind
    rw [deleteComment, hfind]
  · intro tc hfind hauth
    rw [deleteComment, hfind]
    simp [hauth]

/-- C6: in any state whose comments have pairwise-distinct ids and reference
only parents created strictly earlier (smaller id) — the reachable-state
shape, under which the parent-pointer relation is acyclic — the
descendant-collection worklist loop inside `deleteComment` terminates within
its fuel bound and visits each descendant comment id exactly once: the
collected list is duplicate-free and holds exactly the descendant set. -/
theorem deleteComment_worklist_terminates
    (s : State) (target : Nat)
    (hndC : (s.comments.map CommentDoc._id).Nodup)
    (hlt : ∀ c ∈ s.comments, ∀ p, c.parentId = some p → p < c._id) :
    ∃ res, collectLoop s.comments (s.comments.length + 1) [target] [target] =
        some res ∧ res.Nodup ∧ (∀ x, x ∈ res ↔ Desc s.comments target x) :=
  collectLoop_correct hndC hlt

/-- C1: a successful `deleteComment` on a top-level target removes exactly
the comments of the target's descendant set (target included) and exactly the
reactions targeting that set; the owning thread's top-level list loses
exactly the target id while retaining all other ids, and every other thread
is untouched. -/
theorem deleteComment_cascade_exact
    (s : State) (requestor target : Nat) (tc : CommentDoc)
    (hndC : (s.comments.map CommentDoc._id).Nodup)
    (hndT : (s.threads.map ThreadDoc._id).Nodup)
    (hlt : ∀ c ∈ s.comments, ∀ p, c.parentId = some p → p < c._id)
    (hfind : s.comments.find? (fun c => decide (c._id = target)) = some tc)
    (hauth : tc.author = requestor)
    (htop : tc.parentId = none) :
    ∃ s', deleteComment s requestor target = some (.ok (), s') ∧
      (∀ c, c ∈ s'.comments ↔ c ∈ s.comments ∧ ¬ Desc s.comments target c._id) ∧
      (∀ r, r ∈ s'.reactions ↔
        r ∈ s.reactions ∧ ¬ Desc s.comments target r.targetCommentId) ∧
      s'.threads = s.threads.map (fun th =>
        if th._id = tc.threadId then
          { th with topLevelCommentIds :=
              th.topLevelCommentIds.filter (fun x => decide (x ≠ target)) }
        else th) := by
  obtain ⟨s', hdel, hcom, hrea, _, hthrNone, _⟩ :=
    deleteComment_success hndC hlt hfind hauth
  refine ⟨s', hdel, hcom, hrea, ?_⟩
  rw [hthrNone htop, updateFirst_key_eq hndT]

/-- C7: after a successful `deleteComment`, querying any comment id `c` of
the deleted descendant set with `_getComment` returns the `none` sentinel
(never a stale value), and `_getCommentReactions` for `c` returns no
reactions: deletion round-trips to absence for the target, every descendant
reply and all their reactions. -/
theorem deleteComment_query_absent
    (s : State) (requestor target c : Nat) (s' : State)
    (hndC : (s.comments.map CommentDoc._id).Nodup)
    (hlt : ∀ d ∈ s.comments, ∀ p, d.parentId = some p → p < d._id)
    (hdel : deleteComment s requestor target = some (.ok (), s'))
    (hdesc : Desc s.comments target c) :
    _getComment s' c = (.ok none, s') ∧
    _getCommentReactions s' c = (.ok [], s') := by
  obtain ⟨tc, res, hfind, hauth, hloop, hcom, hrea, -, -, -⟩ :=
    deleteComment_success_inv hdel
  obtain ⟨res', hloop', hnd', hiff'⟩ := collectLoop_correct (t := target) hndC hlt
  rw [hloop] at hloop'
  obtain rfl := Option.some.inj hloop'
  have hc_in : c ∈ res := (hiff' c).mpr hdesc
  constructor
  · have hnone : s'.comments.find? (fun x => decide (x._id = c)) = none := by
      rw [List.find?_eq_none]
      intro a ha
      rw [hcom] at ha
      simp only [List.mem_filter, decide_eq_true_eq] at ha ⊢
      intro hac
      exact ha.2 (hac ▸ hc_in)
    simp [_getComment, hnone]
  · have hnil : s'.reactions.filter (fun r => decide (r.targetCommentId = c)) = [] := by
      rw [List.filter_eq_nil_iff]
      intro r hr
      rw [hrea] at hr
      simp only [List.mem_filter, decide_eq_true_eq] at hr ⊢
      intro h
      exact hr.2 (h ▸ hc_in)
    simp [_getCommentReactions, hnil]

/-- C9: every query (`_getThreadComments`, `_getCommentReactions`,
`_getComment`, `_getThreadByBookAndSection`) returns the input state
unchanged and a success record — never an error record — and querying an
absent entity yields the explicit "not found" sentinel: a `none` entity or an
empty list. -/
theorem queries_readonly_sentinel (s : State) (book sect c cid : Nat) :
    (_getThreadComments s book sect).2 = s ∧
    (_getCommentReactions s c).2 = s ∧
    (_getComment s cid).2 = s ∧
    (_getThreadByBookAndSection s book sect).2 = s ∧
    (∃ docs, (_getThreadComments s book sect).1 = .ok docs) ∧
    (∃ docs, (_getCommentReactions s c).1 = .ok docs) ∧
    (∃ doc, (_getComment s cid).1 = .ok doc) ∧
    (∃ doc, (_getThreadByBookAndSection s book sect).1 = .ok doc) ∧
    (s.threads.find? (fun t => decide (t.book = book ∧ t.sectionId = sect)) = none →
      (_getThreadComments s book sect).1 = .ok [] ∧
      (_getThreadByBookAndSection s book sect).1 = .ok none) ∧
    (s.comments.find? (fun x => decide (x._id = cid)) = none →
      (_getComment s cid).1 = .ok none) ∧
    ((∀ r ∈ s.reactions, r.targetCommentId ≠ c) →
      (_getCommentReactions s c).1 = .ok []) := by
  refine ⟨?_, rfl, rfl, rfl, ?_, ⟨_, rfl⟩, ⟨_, rfl⟩, ⟨_, rfl⟩, ?_, ?_, ?_⟩
  · unfold _getThreadComments
    cases hf : s.threads.find? (fun t => decide (t.book = book ∧ t.sectionId = sect)) <;> rfl
  · unfold _getThreadComments
    cases hf : s.threads.find? (fun t => decide (t.book = book ∧ t.sectionId = sect)) <;>
      exact ⟨_, rfl⟩
  · intro hf
    constructor
    · unfold _getThreadComments
      rw [hf]
    · unfold _getThreadByBookAndSection
      rw [hf]
  · intro hf
    unfold _getComment
    rw [hf]
  · intro habs
    have hnil : s.reactions.filter (fun r => decide (r.targetCommentId = c)) = [] := by
      rw [List.filter_eq_nil_iff]
      intro r hr
      simpa using habs r hr
    unfold _getCommentReactions
    rw [hnil]

/-- C8: no `deleteComment` call ever deletes a Thread document: whatever the
outcome, the output thread list corresponds one-to-one with the input list,
each thread keeping its id, book and section, its top-level list either
untouched or with exactly the target id pulled; and when a successful
top-level deletion removes the last top-level comment of its thread, the
thread document persists with an empty top-level list. -/
theorem deleteComment_never_deletes_threads
    (s : State) (requestor target : Nat) (res : Except String Unit) (s' : State)
    (hndT : (s.threads.map ThreadDoc._id).Nodup)
    (hdel : deleteComment s requestor target = some (res, s')) :
    List.Forall₂ (fun T T' => T'._id = T._id ∧ T'.book = T.book ∧
      T'.sectionId = T.sectionId ∧
      (T'.topLevelCommentIds = T.topLevelCommentIds ∨
       T'.topLevelCommentIds =
         T.topLevelCommentIds.filter (fun x => decide (x ≠ target))))
      s.threads s'.threads ∧
    (∀ tc, s.comments.find? (fun c => decide (c._id = target)) = some tc →
      tc.parentId = none → res = .ok () →
      ∀ T ∈ s.threads, T._id = tc.threadId → T.topLevelCommentIds = [target] →
        { T with topLevelCommentIds := ([] : List Nat) } ∈ s'.threads) := by
  have hsame : ∀ (l : List ThreadDoc), List.Forall₂ (fun T T' => T'._id = T._id ∧
      T'.book = T.book ∧ T'.sectionId = T.sectionId ∧
      (T'.topLevelCommentIds = T.topLevelCommentIds ∨
       T'.topLevelCommentIds =
         T.topLevelCommentIds.filter (fun x => decide (x ≠ target)))) l l :=
    fun l => List.forall₂_same.mpr fun T _ => ⟨rfl, rfl, rfl, Or.inl rfl⟩
  cases hres : res with
  | error e =>
      -- a failing call: the state is returned unchanged
      subst hres
      have hs : s' = s := by
        cases hfind : s.comments.find? (fun c => decide (c._id = target)) with
        | none =>
            rw [deleteComment, hfind] at hdel
            simp only [Option.some.injEq, Prod.mk.injEq] at hdel
            exact hdel.2.symm
        | some tc =>
            rw [deleteComment, hfind] at hdel
            by_cases hauth : tc.author = requestor
            · simp only [hauth, ne_eq, not_true_eq_false, if_false] at hdel
              cases hloop : collectLoop s.comments (s.comments.length + 1)
                  [target] [target] with
              | none => rw [hloop] at hdel; simp at hdel
              | some r => rw [hloop] at hdel; simp at hdel
            · simp only [ne_eq, hauth, not_false_eq_true, if_true] at hdel
              simp only [Option.some.injEq, Prod.mk.injEq] at hdel
              exact hdel.2.symm
      subst hs
      exact ⟨hsame _, fun tc _ _ h => by cases h⟩
  | ok u =>
      cases u
      subst hres
      obtain ⟨tc, resL, hfind, hauth, hloop, -, -, -, hthrNone, hthrSome⟩ :=
        deleteComment_success_inv hdel
      constructor
      · cases hpar : tc.parentId with
        | some p =>
            rw [hthrSome p hpar]
            exact hsame _
        | none =>
            rw [hthrNone hpar]
            refine List.Forall₂.imp ?_ (forall₂_updateFirst s.threads)
            intro T T' h
            rcases h with rfl | ⟨-, rfl⟩
            · exact ⟨rfl, rfl, rfl, Or.inl rfl⟩
            · exact ⟨rfl, rfl, rfl, Or.inr rfl⟩
      · intro tc' hfind' htop' _hok T hT hTid hTlist
        rw [hfind] at hfind'
        obtain rfl := Option.some.inj hfind'
        rw [hthrNone htop', updateFirst_key_eq hndT]
        refine List.mem_map.mpr ⟨T, hT, ?_⟩
        rw [if_pos hTid, hTlist]
        simp

/-- C3: `react` fails with the NotFound error when the target does not
resolve to an existing Comment, fails with the DuplicateReaction error when a
Reaction with the identical (reactor, target, type) triple already exists —
so a second identical call right after a success fails — and when the target
exists and every existing reaction differs from the triple in at least one
component, it creates the Reaction with a fresh id, appends that id to the
target comment's reaction-id list, and returns it. -/
theorem react_spec
    (s : State) (reactor target : Nat) (type : String)
    (hndC : (s.comments.map CommentDoc._id).Nodup) :
    (s.comments.find? (fun c => decide (c._id = target)) = none →
      react s reactor target type =
        (.error ("Target comment with ID " ++ toString target ++
          " not found."), s)) ∧
    (∀ tc, s.comments.find? (fun c => decide (c._id = target)) = some tc →
      (∃ r ∈ s.reactions,
          r.reactor = reactor ∧ r.targetCommentId = target ∧ r.type = type) →
      react s reactor target type =
        (.error ("User " ++ toString reactor ++ " already reacted with type " ++
          type ++ " to comment " ++ toString target ++ "."), s)) ∧
    (∀ tc, s.comments.find? (fun c => decide (c._id = target)) = some tc →
      (∀ r ∈ s.reactions,
          ¬(r.reactor = reactor ∧ r.targetCommentId = target ∧ r.type = type)) →
      (react s reactor target type).1 = .ok s.nextId ∧
      (react s reactor target type).2.reactions = s.reactions ++
        [{ _id := s.nextId
           reactor := reactor
           targetCommentId := target
           type := type }] ∧
      { tc with reactionIds := tc.reactionIds ++ [s.nextId] } ∈
        (react s reactor target type).2.comments ∧
      (∀ c ∈ s.comments, c._id ≠ target →
        c ∈ (react s reactor target type).2.comments) ∧
      (react s reactor target type).2.threads = s.threads ∧
      react (react s reactor target type).2 reactor target type =
        (.error ("User " ++ toString reactor ++ " already reacted with type " ++
          type ++ " to comment " ++ toString target ++ "."),
          (react s reactor target type).2)) := by
  refine ⟨?_, ?_, ?_⟩
  · intro hfind
    rw [react, hfind]
  · intro tc hfind ⟨r, hr, hr1, hr2, hr3⟩
    rw [react, hfind]
    cases hfr : s.reactions.find? (fun r =>
        decide (r.reactor = reactor ∧ r.targetCommentId = target ∧ r.type = type)) with
    | none =>
        rw [List.find?_eq_none] at hfr
        exact absurd (by simp [hr1, hr2, hr3]) (hfr r hr)
    | some r' => rfl
  · intro tc hfind hno
    have hfr : s.reactions.find? (fun r =>
        decide (r.reactor = reactor ∧ r.targetCommentId = target ∧ r.type = type)) = none := by
      rw [List.find?_eq_none]
      intro r hr
      simpa using hno r hr
    have htc_mem : tc ∈ s.comments := List.mem_of_find?_eq_some hfind
    have htc_id : tc._id = target := by
      have := List.find?_some hfind
      simpa using this
    have hreact : react s reactor target type =
        (.ok s.nextId,
          { s with
            comments := updateFirst (fun c => decide (c._id = target))
              (fun c => { c with reactionIds := c.reactionIds ++ [s.nextId] })
              s.comments
            reactions := s.reactions ++
              [{ _id := s.nextId
                 reactor := reactor
                 targetCommentId := target
                 type := type }]
            nextId := s.nextId + 1 }) := by
      rw [react, hfind, hfr]
    rw [hreact]
    refine ⟨rfl, rfl, ?_, ?_, rfl, ?_⟩
    · rw [updateFirst_key_eq hndC]
      exact List.mem_map.mpr ⟨tc, htc_mem, by rw [if_pos htc_id]⟩
    · intro c hc hne
      exact mem_updateFirst_of_not hc (by simpa using hne)
    · have hfind2 : (updateFirst (fun c => decide (c._id = target))
          (fun c => { c with reactionIds := c.reactionIds ++ [s.nextId] })
          s.comments).find? (fun c => decide (c._id = target)) ≠ none := by
        intro hnone
        rw [List.find?_eq_none] at hnone
        have hmem2 : ({ tc with reactionIds := tc.reactionIds ++ [s.nextId] }
            : CommentDoc) ∈ updateFirst (fun c => decide (c._id = target))
              (fun c => { c with reactionIds := c.reactionIds ++ [s.nextId] })
              s.comments := by
          rw [updateFirst_key_eq hndC]
          exact List.mem_map.mpr ⟨tc, htc_mem, by rw [if_pos htc_id]⟩
        exact hnone _ hmem2 (by simpa using htc_id)
      rw [react]
      cases hf2 : (updateFirst (fun c => decide (c._id = target))
          (fun c => { c with reactionIds := c.reactionIds ++ [s.nextId] })
          s.comments).find? (fun c => decide (c._id = target)) with
      | none => exact absurd hf2 hfind2
      | some c2 =>
          rw [List.find?_append, hfr]
          simp [List.find?]

/-- C4: `reply` fails with the NotFound error when the parent does not
resolve to an existing Comment; otherwise it appends exactly one new Comment
whose `threadId` equals the parent's `threadId` and whose `parentId` is the
parent id, returns the new comment id, leaves every Thread document (and so
every top-level comment list) untouched, and preserves the invariant that a
comment's `threadId` equals its parent's whenever `parentId` is set,
regardless of the parent's nesting depth. -/
theorem reply_spec
    (s : State) (author parent : Nat) (body : String)
    (hndC : (s.comments.map CommentDoc._id).Nodup)
    (hidsLt : ∀ c ∈ s.comments, c._id < s.nextId)
    (hlt : ∀ c ∈ s.comments, ∀ p, c.parentId = some p → p < c._id) :
    (s.comments.find? (fun c => decide (c._id = parent)) = none →
      reply s author parent body =
        (.error ("Parent comment with ID " ++ toString parent ++
          " not found."), s)) ∧
    (∀ pc, s.comments.find? (fun c => decide (c._id = parent)) = some pc →
      reply s author parent body =
        (.ok s.nextId,
          { s with
            comments := s.comments ++
              [{ _id := s.nextId
                 author := author
                 body := body
                 threadId := pc.threadId
                 parentId := some parent
                 reactionIds := [] }]
            nextId := s.nextId + 1 }) ∧
      (reply s author parent body).2.threads = s.threads ∧
      (ParentSameThread s → ParentSameThread (reply s author parent body).2)) := by
  constructor
  · intro hfind
    rw [reply, hfind]
  · intro pc hfind
    have hpc_mem : pc ∈ s.comments := List.mem_of_find?_eq_some hfind
    have hpc_id : pc._id = parent := by
      have := List.find?_some hfind
      simpa using this
    have hreply : reply s author parent body =
        (.ok s.nextId,
          { s with
            comments := s.comments ++
              [{ _id := s.nextId
                 author := author
                 body := body
                 threadId := pc.threadId
                 parentId := some parent
                 reactionIds := [] }]
            nextId := s.nextId + 1 }) := by
      rw [reply, hfind]
    refine ⟨hreply, by rw [hreply], ?_⟩
    intro hps
    rw [hreply]
    intro c hc p hp d hd hdp
    simp only [List.mem_append, List.mem_singleton] at hc hd
    rcases hc with hc | rfl
    · rcases hd with hd | rfl
      · exact hps c hc p hp d hd hdp
      · -- the new comment cannot be an existing comment's parent
        exfalso
        simp only at hdp
        have h1 : p < c._id := hlt c hc p hp
        have h2 : c._id < s.nextId := hidsLt c hc
        omega
    · rcases hd with hd | rfl
      · -- the new comment's parent resolves to `pc`, in the same thread
        simp only at hp
        obtain rfl : parent = p := by simpa using hp
        have : d = pc := key_inj hndC hd hpc_mem (by rw [hdp, hpc_id])
        subst this
        rfl
      · -- the new comment is not its own parent
        exfalso
        simp only at hp hdp
        obtain rfl : parent = p := by simpa using hp
        have h2 : pc._id < s.nextId := hidsLt pc hpc_mem
        omega

/-- C5: posting to a (book, section) pair with no Thread creates exactly one
Thread, whose top-level list is exactly the new comment id; posting again to
the same pair reuses the existing Thread, keeping the count at one; and every
reachable state has at most one Thread per (book, section) pair. -/
theorem postComment_single_thread
    (s : State) (author book sect : Nat) (body : String)
    (hreach : Reachable s) :
    threadCount (postComment s author book sect body).2 book sect = 1 ∧
    threadCount s book sect ≤ 1 ∧
    (s.threads.find? (fun t => decide (t.book = book ∧ t.sectionId = sect)) = none →
      ∃ T ∈ (postComment s author book sect body).2.threads,
        T.book = book ∧ T.sectionId = sect ∧
        T.topLevelCommentIds = [(postComment s author book sect body).1]) := by
  have h := reachable_wf hreach
  have htb : ∀ x ∈ s.threads.map ThreadDoc._id, x < s.nextId := by
    intro x hx
    obtain ⟨t, ht, rfl⟩ := List.mem_map.mp hx
    exact h.threadIdsLt t ht
  refine ⟨?_, h.threadCountLe book sect, ?_⟩
  · cases hf : s.threads.find? (fun t => decide (t.book = book ∧ t.sectionId = sect)) with
    | none =>
        rw [postComment_none_snd hf, threadCount_eq_countP]
        simp only []
        rw [updateFirst_countP (fun (t : ThreadDoc) => decide (t._id = s.nextId))
            (fun t => { t with topLevelCommentIds :=
              t.topLevelCommentIds ++ [s.nextId + 1] })
            (fun t => decide (t.book = book ∧ t.sectionId = sect)) (fun x => rfl),
          List.countP_append]
        have h00 : s.threads.countP
            (fun t => decide (t.book = book ∧ t.sectionId = sect)) = 0 := by
          rw [List.countP_eq_zero]
          intro t ht
          rw [List.find?_eq_none] at hf
          exact hf t ht
        rw [h00]
        simp
    | some td =>
        rw [postComment_some_snd hf, threadCount_eq_countP]
        simp only []
        rw [updateFirst_countP (fun (t : ThreadDoc) => decide (t._id = td._id))
            (fun t => { t with topLevelCommentIds :=
              t.topLevelCommentIds ++ [s.nextId] })
            (fun t => decide (t.book = book ∧ t.sectionId = sect)) (fun x => rfl)]
        have hge : 0 < s.threads.countP
            (fun t => decide (t.book = book ∧ t.sectionId = sect)) := by
          rw [List.countP_pos_iff]
          refine ⟨td, List.mem_of_find?_eq_some hf, ?_⟩
          have h3 := List.find?_some hf
          simpa using h3
        have hle := h.threadCountLe book sect
        rw [threadCount_eq_countP] at hle
        omega
  · intro hf
    rw [postComment_none_eq hf]
    simp only []
    have hnd2 : ((s.threads ++ [({ _id := s.nextId
                                   book := book
                                   sectionId := sect
                                   topLevelCommentIds := [] } : ThreadDoc)]).map
        ThreadDoc._id).Nodup := by
      rw [List.map_append]
      exact nodup_snoc h.threadIdsNodup (not_mem_of_lt htb)
    rw [updateFirst_key_eq hnd2]
    refine ⟨_, List.mem_map.mpr ⟨({ _id := s.nextId
                                    book := book
                                    sectionId := sect
                                    topLevelCommentIds := [] } : ThreadDoc),
      List.mem_append_right _ (by simp), rfl⟩, ?_, ?_, ?_⟩ <;> simp

/-- C10: in every state reachable by the specified operations, the set of ids
in a comment's `reactionIds` list is exactly the set of `_id`s of the Reaction
documents whose `targetCommentId` is that comment's id. -/
theorem reaction_ids_exact (s : State) (hreach : Reachable s) :
    ∀ c ∈ s.comments, ∀ rid,
      rid ∈ c.reactionIds ↔
        ∃ r ∈ s.reactions, r._id = rid ∧ r.targetCommentId = c._id :=
  (reachable_wf hreach).reactionLink

/-! ## Witnesses: the claim theorems instantiated at concrete states -/

/-- Witness for C1: deleting alice's top-level comment 1 (with one reply and
three reactions) from the sample state. -/
theorem deleteComment_cascade_exact_witness :
    ∃ s', deleteComment sampleS5 1 1 = some (.ok (), s') ∧
      (∀ c, c ∈ s'.comments ↔
        c ∈ sampleS5.comments ∧ ¬ Desc sampleS5.comments 1 c._id) ∧
      (∀ r, r ∈ s'.reactions ↔
        r ∈ sampleS5.reactions ∧ ¬ Desc sampleS5.comments 1 r.targetCommentId) ∧
      s'.threads = sampleS5.threads.map (fun th =>
        if th._id = 0 then
          { th with topLevelCommentIds :=
              th.topLevelCommentIds.filter (fun x => decide (x ≠ 1)) }
        else th) :=
  deleteComment_cascade_exact sampleS5 1 1 ⟨1, 1, "A", 0, none, [3, 4, 5]⟩
    (by decide) (by decide) (parentLt_of_all (by decide)) (by decide) rfl rfl

/-- Witness for C2: deleting an absent comment, and deleting another author's
comment, both fail and return the state unchanged. -/
theorem deleteComment_notFound_forbidden_frame_witness :
    deleteComment sampleS1 2 99 =
      some (.error ("Comment with ID " ++ toString (99 : Nat) ++ " not found."),
        sampleS1) ∧
    deleteComment sampleS1 2 1 =
      some (.error ("Requestor is not the author of comment " ++
        toString (1 : Nat) ++ "."), sampleS1) :=
  ⟨(deleteComment_notFound_forbidden_frame sampleS1 2 99).1 (by decide),
   (deleteComment_notFound_forbidden_frame sampleS1 2 1).2
     ⟨1, 1, "A", 0, none, []⟩ (by decide) (by decide)⟩

/-- Witness for C3: bob's first "like" on comment 1 succeeds with the fresh
reaction id 3, and the identical second call fails. -/
theorem react_spec_witness :
    (react sampleS2 2 1 "like").1 = .ok 3 ∧
    react (react sampleS2 2 1 "like").2 2 1 "like" =
      (.error ("User " ++ toString (2 : Nat) ++ " already reacted with type " ++
        "like" ++ " to comment " ++ toString (1 : Nat) ++ "."),
        (react sampleS2 2 1 "like").2) := by
  have h := (react_spec sampleS2 2 1 "like" (by decide)).2.2
    ⟨1, 1, "A", 0, none, []⟩ (by decide) (by decide)
  exact ⟨h.1, h.2.2.2.2.2⟩

/-- Witness for C4: bob's reply to comment 1 returns the fresh comment id 2
and produces exactly the sample state. -/
theorem reply_spec_witness :
    reply sampleS1 2 1 "re" = (.ok 2, sampleS2) :=
  ((reply_spec sampleS1 2 1 "re" (by decide) (by decide)
      (parentLt_of_all (by decide))).2 ⟨1, 1, "A", 0, none, []⟩ (by decide)).1

/-- Witness for C5: a second post to (book 10, section 20) leaves exactly one
thread for that pair. -/
theorem postComment_single_thread_witness :
    threadCount (postComment sampleS1 3 10 20 "B").2 10 20 = 1 :=
  (postComment_single_thread sampleS1 3 10 20 "B"
    (Reachable.post 1 10 20 "A" Reachable.init)).1

/-- Witness for C6: the worklist loop on the sample state with a reply
terminates with a duplicate-free descendant list. -/
theorem deleteComment_worklist_terminates_witness :
    ∃ res, collectLoop sampleS2.comments (sampleS2.comments.length + 1) [1] [1] =
        some res ∧ res.Nodup ∧ (∀ x, x ∈ res ↔ Desc sampleS2.comments 1 x) :=
  deleteComment_worklist_terminates sampleS2 1 (by decide)
    (parentLt_of_all (by decide))

/-- Witness for C7: after deleting comment 1, querying the deleted reply
(comment 2) yields the `none` sentinel and no reactions. -/
theorem deleteComment_query_absent_witness :
    _getComment ⟨[⟨0, 10, 20, []⟩], [], [], 6⟩ 2 =
      (.ok none, ⟨[⟨0, 10, 20, []⟩], [], [], 6⟩) ∧
    _getCommentReactions ⟨[⟨0, 10, 20, []⟩], [], [], 6⟩ 2 =
      (.ok [], ⟨[⟨0, 10, 20, []⟩], [], [], 6⟩) :=
  deleteComment_query_absent sampleS5 1 1 2 ⟨[⟨0, 10, 20, []⟩], [], [], 6⟩
    (by decide) (parentLt_of_all (by decide)) (by rfl)
    (Desc.step (c := ⟨2, 2, "re", 0, some 1, []⟩) (by decide) rfl Desc.base)

/-- Witness for C8: after deleting the last top-level comment, the thread for
(book 10, section 20) persists with an empty top-level list. -/
theorem deleteComment_never_deletes_threads_witness :
    ({ _id := 0, book := 10, sectionId := 20, topLevelCommentIds := [] } :
        ThreadDoc) ∈ (⟨[⟨0, 10, 20, []⟩], [], [], 6⟩ : State).threads :=
  (deleteComment_never_deletes_threads sampleS5 1 1 (.ok ())
      ⟨[⟨0, 10, 20, []⟩], [], [], 6⟩ (by decide) (by rfl)).2
    ⟨1, 1, "A", 0, none, [3, 4, 5]⟩ (by decide) rfl rfl
    ⟨0, 10, 20, [1]⟩ (by decide) rfl rfl

/-- Witness for C9: querying an absent comment id in the sample state returns
the `none` sentinel. -/
theorem queries_readonly_sentinel_witness :
    (_getComment sampleS1 99).1 = .ok none := by
  obtain ⟨-, -, -, -, -, -, -, -, -, hi, -⟩ :=
    queries_readonly_sentinel sampleS1 10 20 1 99
  exact hi (by decide)

/-- Witness for C10: in the sample state with one reaction, comment 1's
reaction-id list holds exactly the id of the reaction targeting it. -/
theorem reaction_ids_exact_witness :
    (3 : Nat) ∈ (⟨1, 1, "A", 0, none, [3]⟩ : CommentDoc).reactionIds ↔
      ∃ r ∈ sampleS3.reactions, r._id = 3 ∧
        r.targetCommentId = (⟨1, 1, "A", 0, none, [3]⟩ : CommentDoc)._id :=
  reaction_ids_exact sampleS3
    (Reachable.rea 2 1 "like" (Reachable.rep 2 1 "re"
      (Reachable.post 1 10 20 "A" Reachable.init)))
    ⟨1, 1, "A", 0, none, [3]⟩ (by decide) 3

end Commentary
